import Mathlib

/-!
Shallow embedding of src/certificates.rs of the agate repository.

The filesystem is abstracted: each candidate certificate directory is
described by the presence and parse outcome of its cert.pem and key.rsa
files.  Parsed objects (certificate chains, private keys) are abstracted
as natural-number handles, which is enough for every resolution claim.
External library calls (webpki DNS-name validation, certificate
cross-checking) are parameters of the embedding.
-/

/-- Outcome of probing one of the two files (cert.pem or key.rsa) of a
candidate domain directory: the file is absent, present but rejected by
the corresponding parser, or present and parsed to an abstract object.
For the key file the invalid case covers both an unparseable pkcs8 file
and a key rejected by RSASigningKey::new, since both lead to BadKey in
the source. -/
inductive FileContent where
  | absent
  | invalid
  | valid (obj : Nat)
deriving DecidableEq

/-- Abstraction of the rustls CertifiedKey built by CertifiedKey::new in
load_domain: the handle of the parsed certificate chain paired with the
handle of the parsed signing key. -/
structure CertifiedKey where
  chain : Nat
  key : Nat
deriving DecidableEq

/-- The enum CertLoadError of src/certificates.rs. -/
inductive CertLoadError where
  | NoReadCertDir
  | BadDomain (domain : String)
  | BadKey (domain : String)
  | BadCert (domain : String)
  | MissingKey (domain : String)
  | MissingCert (domain : String)
  | EmptyDomain (domain : String)
deriving DecidableEq

/-- The struct CertStore of src/certificates.rs: a vector of label and
certificate pairs whose order matters. -/
structure CertStore where
  certs : List (String × CertifiedKey)
deriving DecidableEq

/-- One subdirectory of the certificate root directory, as seen by the
scan in CertStore::load_from: its file name together with the outcome of
probing root/name/cert.pem and root/name/key.rsa. -/
structure DomainDir where
  name : String
  cert : FileContent
  key : FileContent
deriving DecidableEq

/-- The certificate root directory passed to CertStore::load_from: the
outcome of probing root/cert.pem and root/key.rsa, whether read_dir
succeeds, and the list of subdirectories (read_dir entries that are
directories), in iteration order. -/
structure CertTree where
  rootCert : FileContent
  rootKey : FileContent
  readable : Bool
  dirs : List DomainDir
deriving DecidableEq

deriving instance DecidableEq for Except

/-- The function load_domain of src/certificates.rs, over the abstract
file probes for root/domain/cert.pem and root/domain/key.rsa.  It mirrors
the check order of the source: certificate-file existence first (with the
key file probed only to tell EmptyDomain from MissingCert), then
certificate parsing, then key-file existence, then key parsing. -/
def load_domain (cert : FileContent) (key : FileContent) (domain : String) :
    Except CertLoadError CertifiedKey :=
  match cert with
  | .absent =>
    match key with
    | .absent => .error (.EmptyDomain domain)
    | _ => .error (.MissingCert domain)
  | .invalid => .error (.BadCert domain)
  | .valid chain =>
    match key with
    | .absent => .error (.MissingKey domain)
    | .invalid => .error (.BadKey domain)
    | .valid k => .ok ⟨chain, k⟩

/-- Rust byte length of a string: str::len counts UTF-8 bytes, the sum of
the UTF-8 sizes of the characters. -/
def byteLen (l : List Char) : Nat := (l.map Char.utf8Size).sum

/-- Rust str::split at the dot separator, on the character list of a
string: the empty list splits to one empty component, and every separator
opens a new component. -/
def splitDots : List Char → List (List Char)
  | [] => [[]]
  | c :: cs =>
    if c = '.' then [] :: splitDots cs
    else
      match splitDots cs with
      | h :: t => (c :: h) :: t
      | [] => [[c]]

/-- Join with dots, the inverse of splitDots. -/
def joinDots : List (List Char) → List Char
  | [] => []
  | [l] => l
  | l :: ls => l ++ '.' :: joinDots ls

/-- Rust Ord for char, by code point. -/
def chrCmp (a b : Char) : Ordering :=
  if a.toNat < b.toNat then .lt else if b.toNat < a.toNat then .gt else .eq

/-- Rust Ord for str: lexicographic on the UTF-8 bytes, equivalently
lexicographic on code points. -/
def listCmp : List Char → List Char → Ordering
  | [], [] => .eq
  | [], _ :: _ => .lt
  | _ :: _, [] => .gt
  | a :: as, b :: bs =>
    match chrCmp a b with
    | .eq => listCmp as bs
    | o => o

/-- Rust Ord for usize. -/
def natCmp (m n : Nat) : Ordering :=
  if m < n then .lt else if n < m then .gt else .eq

/-- The loop of the comparator in CertStore::load_from: walk the zipped
reversed component lists and return the comparison of the first differing
pair; when the zip is exhausted with all pairs equal, fall through (here:
return eq, which sends domainCmp to the length tie-break, exactly as the
source loop falls through to it). -/
def partsCmp : List (List Char) → List (List Char) → Ordering
  | a :: as, b :: bs =>
    match listCmp a b with
    | .eq => partsCmp as bs
    | o => o
  | _, _ => .eq

/-- The comparator passed to sort_unstable_by in CertStore::load_from:
compare dot components right to left; on fallthrough, longer string first
(byte-length comparison, reversed). -/
def domainCmp (a b : String) : Ordering :=
  match partsCmp (splitDots a.data).reverse (splitDots b.data).reverse with
  | .eq => (natCmp (byteLen a.data) (byteLen b.data)).swap
  | o => o

/-- Ascending order with respect to domainCmp: the relation in which
sort_unstable_by arranges the certs vector. -/
def certLe (a b : String × CertifiedKey) : Prop := domainCmp a.1 b.1 ≠ .gt

instance : DecidableRel certLe :=
  fun a b => inferInstanceAs (Decidable (domainCmp a.1 b.1 ≠ .gt))

/-- The sort_unstable_by call of CertStore::load_from.  An unstable sort
may produce any arrangement that is ascending for the comparator; the
model uses insertion sort, which produces one such arrangement.  The
determinism theorem for claim C9 below shows the comparator admits
exactly one ascending arrangement of entries with pairwise distinct
labels, so the choice of sorting algorithm is immaterial. -/
def sortCerts (l : List (String × CertifiedKey)) : List (String × CertifiedKey) :=
  List.insertionSort certLe l

/-- The for loop of CertStore::load_from over the subdirectories of the
certificate root, with the external checks as parameters: validDns models
webpki DNSNameRef::try_from_ascii_str succeeding, and crossCheck models
CertifiedKey::cross_check_end_entity_cert succeeding for the loaded key
against the directory name.  Each entry is validated, loaded,
cross-checked and appended; the first error aborts the whole load. -/
def loadDirs (validDns : String → Bool) (crossCheck : CertifiedKey → String → Bool) :
    List DomainDir → Except CertLoadError (List (String × CertifiedKey))
  | [] => .ok []
  | d :: ds =>
    if validDns d.name then
      match load_domain d.cert d.key d.name with
      | .error e => .error e
      | .ok key =>
        if crossCheck key d.name then
          match loadDirs validDns crossCheck ds with
          | .error e => .error e
          | .ok rest => .ok ((d.name, key) :: rest)
        else .error (.BadCert d.name)
    else .error (.BadDomain d.name)

/-- The fallback probe at the top of CertStore::load_from: load_domain is
called on the root itself with the dot as domain name; an EmptyDomain
outcome means no fallback is configured and contributes no entry, success
pushes one entry labelled with the empty string, and every other loader
error is relabeled to the name fallback.  The NoReadCertDir and BadDomain
arms are unreachable there, as load_domain never returns them; they
correspond to the unreachable arms of the source. -/
def fallbackResult (t : CertTree) : Except CertLoadError (List (String × CertifiedKey)) :=
  match load_domain t.rootCert t.rootKey "." with
  | .error .NoReadCertDir => .error .NoReadCertDir
  | .error (.BadDomain d) => .error (.BadDomain d)
  | .error (.BadKey _) => .error (.BadKey "fallback")
  | .error (.BadCert _) => .error (.BadCert "fallback")
  | .error (.MissingKey _) => .error (.MissingKey "fallback")
  | .error (.MissingCert _) => .error (.MissingCert "fallback")
  | .error (.EmptyDomain _) => .ok []
  | .ok key => .ok [("", key)]

/-- The function CertStore::load_from, over an abstract directory tree:
probe the fallback, then scan the subdirectories (a read_dir failure
gives NoReadCertDir), then sort the accumulated entries with the
comparator. -/
def load_from (validDns : String → Bool) (crossCheck : CertifiedKey → String → Bool)
    (t : CertTree) : Except CertLoadError CertStore :=
  match fallbackResult t with
  | .error e => .error e
  | .ok fb =>
    if t.readable then
      match loadDirs validDns crossCheck t.dirs with
      | .error e => .error e
      | .ok l => .ok ⟨sortCerts (fb ++ l)⟩
    else .error .NoReadCertDir

/-- Rust str::ends_with for string arguments: a literal byte-suffix test,
equivalently a character-list suffix test. -/
def endsWith (s : String) (suf : String) : Bool := suf.data.isSuffixOf s.data

/-- The method resolve of the ResolvesServerCert implementation for
CertStore: without a server name the resolver returns none; with one it
returns the certificate of the first stored entry whose label is a
literal suffix of the name. -/
def resolve (store : CertStore) (serverName : Option String) : Option CertifiedKey :=
  match serverName with
  | some name => (store.certs.find? (fun p => endsWith name p.1)).map (fun p => p.2)
  | none => none

/-- Rust str::is_ascii: every character is an ASCII code point. -/
def strIsAscii (s : String) : Bool := s.data.all (fun ch => ch.toNat ≤ 127)

/-- The Display implementation for CertLoadError, with the guarded
BadDomain arm for non-ASCII names first, as in the source. -/
def displayCertLoadError : CertLoadError → String
  | .NoReadCertDir => "Could not read from certificate directory."
  | .BadDomain domain =>
    if !strIsAscii domain then
      "The domain name " ++ domain ++ " cannot be processed, it must be punycoded."
    else "The domain name " ++ domain ++ " cannot be processed."
  | .BadKey domain => "The key file for " ++ domain ++ " is malformed."
  | .BadCert domain => "The certificate file for " ++ domain ++ " is malformed."
  | .MissingKey domain => "The key file for " ++ domain ++ " is missing."
  | .MissingCert domain => "The certificate file for " ++ domain ++ " is missing."
  | .EmptyDomain domain =>
    "A folder for " ++ domain ++ " exists, but there is no certificate or key file."

/-- ASCII letter, digit or hyphen, by code point. -/
def isLdhChar (ch : Char) : Bool :=
  (97 ≤ ch.toNat && ch.toNat ≤ 122) || (65 ≤ ch.toNat && ch.toNat ≤ 90) ||
    (48 ≤ ch.toNat && ch.toNat ≤ 57) || ch.toNat == 45

/-- One syntactically acceptable DNS label: nonempty, at most 63
characters, letters, digits and hyphens only, no hyphen at either end. -/
def validLabel (l : List Char) : Bool :=
  !l.isEmpty && decide (l.length ≤ 63) && l.all isLdhChar &&
    l.head? != some '-' && l.getLast? != some '-'

/-- Modelled from the spec: webpki DNSNameRef::try_from_ascii_str is an
external dependency whose source is not part of this repository; the spec
requires a syntactically valid ASCII DNS name and requires non-ASCII
names to be rejected.  This model accepts exactly the nonempty strings
all of whose dot-separated labels are valid.  It instantiates the
validDns parameter in witnesses and shows non-ASCII names are
rejected. -/
def validDnsName (s : String) : Bool :=
  !s.data.isEmpty && (splitDots s.data).all validLabel

/-- The rightmost dot component of a string is nonempty.  Every name
accepted by validDnsName has this shape, and so does every name webpki
accepts; the empty fallback label does not. -/
def lastComponentNonempty (s : String) : Bool :=
  match (splitDots s.data).reverse with
  | [] => false
  | l :: _ => !l.isEmpty

/-! Comparator theory: the comparator of CertStore::load_from never
returns eq on distinct strings, is swap-symmetric, and puts the empty
label strictly before every label with a nonempty rightmost component. -/

theorem chr_toNat_inj {a b : Char} (h : a.toNat = b.toNat) : a = b := by
  rw [← Char.ofNat_toNat a, h, Char.ofNat_toNat]

theorem chrCmp_eq_iff (a b : Char) : chrCmp a b = .eq ↔ a = b := by
  unfold chrCmp
  constructor
  · intro h
    split at h
    · exact absurd h (by simp)
    · split at h
      · exact absurd h (by simp)
      · exact chr_toNat_inj (by omega)
  · intro h
    subst h
    simp

theorem chrCmp_swap (a b : Char) : (chrCmp a b).swap = chrCmp b a := by
  unfold chrCmp
  by_cases h1 : a.toNat < b.toNat
  · simp [h1, show ¬ b.toNat < a.toNat from by omega, Ordering.swap]
  · by_cases h2 : b.toNat < a.toNat
    · simp [h1, h2, Ordering.swap]
    · simp [h1, h2, Ordering.swap]

theorem listCmp_eq_iff (x : List Char) : ∀ y, listCmp x y = .eq ↔ x = y := by
  induction x with
  | nil => intro y; cases y <;> simp [listCmp]
  | cons a as ih =>
    intro y
    cases y with
    | nil => simp [listCmp]
    | cons b bs =>
      simp only [listCmp]
      cases h : chrCmp a b with
      | eq =>
        have hab : a = b := (chrCmp_eq_iff a b).mp h
        subst hab
        simp [ih bs]
      | lt =>
        have hne : a ≠ b := by
          intro hab
          subst hab
          rw [(chrCmp_eq_iff a a).mpr rfl] at h
          exact absurd h (by simp)
        simp [hne]
      | gt =>
        have hne : a ≠ b := by
          intro hab
          subst hab
          rw [(chrCmp_eq_iff a a).mpr rfl] at h
          exact absurd h (by simp)
        simp [hne]

theorem listCmp_swap (x : List Char) : ∀ y, (listCmp x y).swap = listCmp y x := by
  induction x with
  | nil => intro y; cases y <;> simp [listCmp, Ordering.swap]
  | cons a as ih =>
    intro y
    cases y with
    | nil => simp [listCmp, Ordering.swap]
    | cons b bs =>
      simp only [listCmp]
      rw [← chrCmp_swap a b]
      cases chrCmp a b with
      | eq => exact ih bs
      | lt => rfl
      | gt => rfl

theorem partsCmp_self (x : List (List Char)) : partsCmp x x = .eq := by
  induction x with
  | nil => rfl
  | cons a as ih =>
    simp only [partsCmp]
    rw [(listCmp_eq_iff a a).mpr rfl]
    exact ih

theorem partsCmp_swap (x : List (List Char)) :
    ∀ y, (partsCmp x y).swap = partsCmp y x := by
  induction x with
  | nil => intro y; cases y <;> simp [partsCmp, Ordering.swap]
  | cons a as ih =>
    intro y
    cases y with
    | nil => simp [partsCmp, Ordering.swap]
    | cons b bs =>
      simp only [partsCmp]
      rw [← listCmp_swap a b]
      cases listCmp a b with
      | eq => exact ih bs
      | lt => rfl
      | gt => rfl

theorem partsCmp_eq_ext (x : List (List Char)) :
    ∀ y, partsCmp x y = .eq → ∃ ext, y = x ++ ext ∨ x = y ++ ext := by
  induction x with
  | nil => intro y _; exact ⟨y, Or.inl (by simp)⟩
  | cons a as ih =>
    intro y h
    cases y with
    | nil => exact ⟨a :: as, Or.inr (by simp)⟩
    | cons b bs =>
      simp only [partsCmp] at h
      cases hc : listCmp a b with
      | eq =>
        rw [hc] at h
        have hab : a = b := (listCmp_eq_iff a b).mp hc
        subst hab
        obtain ⟨ext, hext⟩ := ih bs h
        cases hext with
        | inl he => exact ⟨ext, Or.inl (by rw [he]; simp)⟩
        | inr he => exact ⟨ext, Or.inr (by rw [he]; simp)⟩
      | lt => rw [hc] at h; simp at h
      | gt => rw [hc] at h; simp at h

theorem splitDots_ne_nil (cs : List Char) : splitDots cs ≠ [] := by
  cases cs with
  | nil => simp [splitDots]
  | cons c cs =>
    simp only [splitDots]
    split
    · simp
    · split <;> simp

theorem joinDots_splitDots (cs : List Char) : joinDots (splitDots cs) = cs := by
  induction cs with
  | nil => rfl
  | cons c cs ih =>
    simp only [splitDots]
    by_cases hc : c = '.'
    · rw [if_pos hc]
      cases h : splitDots cs with
      | nil => exact absurd h (splitDots_ne_nil cs)
      | cons x xs =>
        rw [h] at ih
        subst hc
        show '.' :: joinDots (x :: xs) = '.' :: cs
        rw [ih]
    · rw [if_neg hc]
      cases h : splitDots cs with
      | nil => exact absurd h (splitDots_ne_nil cs)
      | cons x xs =>
        rw [h] at ih
        cases xs with
        | nil =>
          show c :: x = c :: cs
          rw [show joinDots [x] = x from rfl] at ih
          rw [ih]
        | cons y ys =>
          show (c :: x) ++ '.' :: joinDots (y :: ys) = c :: cs
          rw [show joinDots (x :: y :: ys) = x ++ '.' :: joinDots (y :: ys) from rfl] at ih
          rw [← ih]
          rfl

theorem joinDots_append (xs : List (List Char)) :
    ∀ ys, xs ≠ [] → ys ≠ [] →
      joinDots (xs ++ ys) = joinDots xs ++ '.' :: joinDots ys := by
  induction xs with
  | nil => intro ys hx _; exact absurd rfl hx
  | cons x xs ih =>
    intro ys _ hy
    cases xs with
    | nil =>
      cases ys with
      | nil => exact absurd rfl hy
      | cons y ys2 => rfl
    | cons x2 xs2 =>
      have hrec := ih ys (by simp) hy
      show x ++ '.' :: joinDots ((x2 :: xs2) ++ ys) =
        (x ++ '.' :: joinDots (x2 :: xs2)) ++ '.' :: joinDots ys
      rw [hrec]
      simp

theorem byteLen_append (x y : List Char) : byteLen (x ++ y) = byteLen x + byteLen y := by
  simp [byteLen]

theorem splitExt_byteLen_lt (x y : List Char) (ext : List (List Char)) (hext : ext ≠ [])
    (h : splitDots y = ext ++ splitDots x) : byteLen x < byteLen y := by
  have hy : y = joinDots (ext ++ splitDots x) := by rw [← h, joinDots_splitDots]
  rw [joinDots_append ext (splitDots x) hext (splitDots_ne_nil x), joinDots_splitDots] at hy
  have hdot : ('.').utf8Size = 1 := by decide
  have hcons : byteLen ('.' :: x) = 1 + byteLen x := by
    simp [byteLen, hdot]
  rw [hy, byteLen_append, hcons]
  omega

theorem ordering_swap_eq_iff (o : Ordering) : o.swap = .eq ↔ o = .eq := by
  cases o <;> simp [Ordering.swap]

theorem natCmp_eq_iff (m n : Nat) : natCmp m n = .eq ↔ m = n := by
  unfold natCmp
  by_cases h1 : m < n
  · simp [h1]
    omega
  · by_cases h2 : n < m
    · simp [h1, h2]
      omega
    · simp [h1, h2]
      omega

theorem natCmp_swap (m n : Nat) : (natCmp m n).swap = natCmp n m := by
  unfold natCmp
  by_cases h1 : m < n
  · simp [h1, show ¬ n < m from by omega, Ordering.swap]
  · by_cases h2 : n < m
    · simp [h1, h2, Ordering.swap]
    · simp [h1, h2, Ordering.swap]

theorem string_eq_of_data {a b : String} (h : a.data = b.data) : a = b := by
  cases a
  cases b
  simp_all

theorem domainCmp_eq_iff (a b : String) : domainCmp a b = .eq ↔ a = b := by
  constructor
  · intro h
    unfold domainCmp at h
    cases hp : partsCmp (splitDots a.data).reverse (splitDots b.data).reverse with
    | eq =>
      rw [hp] at h
      replace h : (natCmp (byteLen a.data) (byteLen b.data)).swap = .eq := h
      have hlen : byteLen a.data = byteLen b.data :=
        (natCmp_eq_iff _ _).mp ((ordering_swap_eq_iff _).mp h)
      obtain ⟨ext, hext⟩ := partsCmp_eq_ext _ _ hp
      cases hext with
      | inl he =>
        have hsp : splitDots b.data = ext.reverse ++ splitDots a.data := by
          have h2 := congrArg List.reverse he
          simpa using h2
        cases hen : ext with
        | nil =>
          rw [hen] at hsp
          simp at hsp
          have hdata : b.data = a.data := by
            rw [← joinDots_splitDots b.data, hsp, joinDots_splitDots]
          exact (string_eq_of_data hdata).symm
        | cons e es =>
          have hlt := splitExt_byteLen_lt a.data b.data ext.reverse
            (by rw [hen]; simp) hsp
          omega
      | inr he =>
        have hsp : splitDots a.data = ext.reverse ++ splitDots b.data := by
          have h2 := congrArg List.reverse he
          simpa using h2
        cases hen : ext with
        | nil =>
          rw [hen] at hsp
          simp at hsp
          have hdata : a.data = b.data := by
            rw [← joinDots_splitDots a.data, hsp, joinDots_splitDots]
          exact string_eq_of_data hdata
        | cons e es =>
          have hlt := splitExt_byteLen_lt b.data a.data ext.reverse
            (by rw [hen]; simp) hsp
          omega
    | lt => rw [hp] at h; simp at h
    | gt => rw [hp] at h; simp at h
  · intro h
    subst h
    unfold domainCmp
    rw [partsCmp_self]
    show (natCmp (byteLen a.data) (byteLen a.data)).swap = .eq
    rw [(natCmp_eq_iff _ _).mpr rfl]
    rfl

theorem domainCmp_swap (a b : String) : (domainCmp a b).swap = domainCmp b a := by
  unfold domainCmp
  rw [← partsCmp_swap (splitDots a.data).reverse (splitDots b.data).reverse]
  cases partsCmp (splitDots a.data).reverse (splitDots b.data).reverse with
  | eq =>
    show (natCmp (byteLen a.data) (byteLen b.data)).swap.swap =
      (natCmp (byteLen b.data) (byteLen a.data)).swap
    rw [Ordering.swap_swap, ← natCmp_swap]
  | lt => rfl
  | gt => rfl

theorem domainCmp_empty_lt (s : String) (h : lastComponentNonempty s = true) :
    domainCmp "" s = .lt := by
  unfold lastComponentNonempty at h
  unfold domainCmp
  have h0 : (splitDots ("" : String).data).reverse = [[]] := rfl
  rw [h0]
  cases hrev : (splitDots s.data).reverse with
  | nil => rw [hrev] at h; simp at h
  | cons l rest =>
    rw [hrev] at h
    simp at h
    cases hl : l with
    | nil => rw [hl] at h; simp at h
    | cons c cs => rfl

/-! Infrastructure about the suffix test, find?, permutations, the sorted
arrangement and the loading pipeline. -/

theorem endsWith_iff (s suf : String) : endsWith s suf = true ↔ suf.data <:+ s.data := by
  unfold endsWith
  exact List.isSuffixOf_iff_suffix

theorem endsWith_refl (s : String) : endsWith s s = true :=
  (endsWith_iff s s).mpr (List.suffix_refl _)

theorem endsWith_emptyLabel (s : String) : endsWith s "" = true :=
  (endsWith_iff s "").mpr List.nil_suffix

theorem find?_eq_some_decomp {α : Type} (p : α → Bool) :
    ∀ (l : List α) (a : α),
      l.find? p = some a ↔
        ∃ l1 l2, l = l1 ++ a :: l2 ∧ p a = true ∧ ∀ x ∈ l1, p x = false := by
  intro l
  induction l with
  | nil =>
    intro a
    constructor
    · intro h; simp at h
    · rintro ⟨l1, l2, heq, -, -⟩
      exact absurd heq (by simp)
  | cons b bs ih =>
    intro a
    by_cases hb : p b
    · rw [List.find?_cons_of_pos _ hb]
      constructor
      · intro h
        injection h with h
        subst h
        exact ⟨[], bs, rfl, hb, by simp⟩
      · rintro ⟨l1, l2, heq, hpa, hfront⟩
        cases l1 with
        | nil =>
          simp at heq
          rw [heq.1]
        | cons c l1 =>
          simp at heq
          have hfc := hfront c (by simp)
          rw [← heq.1] at hfc
          rw [hfc] at hb
          exact absurd hb (by simp)
    · rw [List.find?_cons_of_neg _ hb]
      rw [ih a]
      constructor
      · rintro ⟨l1, l2, heq, hpa, hfront⟩
        refine ⟨b :: l1, l2, by rw [heq]; rfl, hpa, ?_⟩
        intro x hx
        rcases List.mem_cons.mp hx with h | h
        · subst h
          simpa using hb
        · exact hfront x h
      · rintro ⟨l1, l2, heq, hpa, hfront⟩
        cases l1 with
        | nil =>
          simp at heq
          rw [heq.1] at hb
          exact absurd hpa hb
        | cons c l1 =>
          simp at heq
          exact ⟨l1, l2, heq.2, hpa, fun x hx => hfront x (by simp [hx])⟩

theorem find?_mem_unique {α : Type} {p : α → Bool} {l : List α} {a : α}
    (ha : a ∈ l) (hpa : p a = true) (huniq : ∀ b ∈ l, p b = true → b = a) :
    l.find? p = some a := by
  induction l with
  | nil => simp at ha
  | cons c cs ih =>
    by_cases hc : p c
    · rw [List.find?_cons_of_pos _ hc]
      rw [huniq c (by simp) hc]
    · rw [List.find?_cons_of_neg _ hc]
      rcases List.mem_cons.mp ha with h | h
      · subst h
        exact absurd hpa hc
      · exact ih h (fun b hb hpb => huniq b (by simp [hb]) hpb)

theorem certLe_labels_eq {a b : String × CertifiedKey} (h1 : certLe a b) (h2 : certLe b a) :
    a.1 = b.1 := by
  unfold certLe at h1 h2
  rw [← domainCmp_swap a.1 b.1] at h2
  cases h : domainCmp a.1 b.1 with
  | eq => exact (domainCmp_eq_iff _ _).mp h
  | lt => rw [h] at h2; exact absurd rfl h2
  | gt => rw [h] at h1; exact absurd rfl h1

theorem sorted_perm_unique :
    ∀ (l1 l2 : List (String × CertifiedKey)),
      l1.Pairwise certLe → l2.Pairwise certLe → l1.Perm l2 →
      (l1.map (fun p => p.1)).Nodup → l1 = l2 := by
  intro l1
  induction l1 with
  | nil =>
    intro l2 _ _ hp _
    exact (List.Perm.eq_nil hp.symm).symm
  | cons a as ih =>
    intro l2 h1 h2 hp hnd
    cases l2 with
    | nil => exact absurd (List.Perm.eq_nil hp) (by simp)
    | cons b bs =>
      have hab : a = b := by
        by_contra hne
        have hainl2 : a ∈ b :: bs := hp.mem_iff.mp (by simp)
        have hbinl1 : b ∈ a :: as := hp.symm.mem_iff.mp (by simp)
        have ha2 : a ∈ bs := by
          rcases List.mem_cons.mp hainl2 with h | h
          · exact absurd h hne
          · exact h
        have hb1 : b ∈ as := by
          rcases List.mem_cons.mp hbinl1 with h | h
          · exact absurd h.symm hne
          · exact h
        have hle1 : certLe a b := List.rel_of_pairwise_cons h1 hb1
        have hle2 : certLe b a := List.rel_of_pairwise_cons h2 ha2
        have hlab : a.1 = b.1 := certLe_labels_eq hle1 hle2
        have hmem : a.1 ∈ as.map (fun p => p.1) := by
          rw [hlab]
          exact List.mem_map_of_mem _ hb1
        rw [List.map_cons] at hnd
        exact (List.nodup_cons.mp hnd).1 hmem
      subst hab
      have hpt : as.Perm bs := hp.cons_inv
      have ht1 : as.Pairwise certLe := (List.pairwise_cons.mp h1).2
      have ht2 : bs.Pairwise certLe := (List.pairwise_cons.mp h2).2
      have hndt : (as.map (fun p => p.1)).Nodup := by
        rw [List.map_cons] at hnd
        exact (List.nodup_cons.mp hnd).2
      rw [ih bs ht1 ht2 hpt hndt]

theorem sortCerts_perm (l : List (String × CertifiedKey)) : (sortCerts l).Perm l :=
  List.perm_insertionSort certLe l

theorem orderedInsert_front (a : String × CertifiedKey)
    (l : List (String × CertifiedKey)) (h : ∀ y ∈ l, certLe a y) :
    List.orderedInsert certLe a l = a :: l := by
  cases l with
  | nil => rfl
  | cons y ys =>
    simp only [List.orderedInsert]
    rw [if_pos (h y (by simp))]

theorem sortCerts_cons_front (a : String × CertifiedKey)
    (l : List (String × CertifiedKey)) (h : ∀ y ∈ l, certLe a y) :
    sortCerts (a :: l) = a :: sortCerts l := by
  unfold sortCerts
  show List.orderedInsert certLe a (List.insertionSort certLe l) =
    a :: List.insertionSort certLe l
  exact orderedInsert_front a _ (fun y hy => h y ((sortCerts_perm l).mem_iff.mp hy))

theorem loadDirs_cons_ok (v : String → Bool) (c : CertifiedKey → String → Bool)
    (d : DomainDir) (ds : List DomainDir) (l : List (String × CertifiedKey)) :
    loadDirs v c (d :: ds) = .ok l ↔
      ∃ key rest, v d.name = true ∧ load_domain d.cert d.key d.name = .ok key ∧
        c key d.name = true ∧ loadDirs v c ds = .ok rest ∧ l = (d.name, key) :: rest := by
  simp only [loadDirs]
  by_cases hv : v d.name
  · cases hld : load_domain d.cert d.key d.name with
    | error e => simp [hv]
    | ok key =>
      by_cases hcc : c key d.name
      · cases hrec : loadDirs v c ds with
        | error e => simp [hv, hcc]
        | ok rest =>
          simp only [hv, if_true, hcc]
          constructor
          · intro h
            replace h : (Except.ok ((d.name, key) :: rest) :
              Except CertLoadError _) = .ok l := h
            injection h with h
            exact ⟨key, rest, by simp [hv], rfl, hcc, rfl, h.symm⟩
          · rintro ⟨key2, rest2, -, hld2, -, hrec2, hl⟩
            injection hld2 with hk
            injection hrec2 with hr
            show (Except.ok ((d.name, key) :: rest) : Except CertLoadError _) = .ok l
            rw [hl, hk, hr]
      · simp [hv, hcc]
  · simp [hv]

theorem loadDirs_ok_labels (v : String → Bool) (c : CertifiedKey → String → Bool) :
    ∀ (ds : List DomainDir) (l : List (String × CertifiedKey)),
      loadDirs v c ds = .ok l → l.map (fun p => p.1) = ds.map (fun d => d.name) := by
  intro ds
  induction ds with
  | nil =>
    intro l h
    simp only [loadDirs] at h
    injection h with h
    rw [← h]
    rfl
  | cons d ds ih =>
    intro l h
    obtain ⟨key, rest, -, -, -, hrec, hl⟩ := (loadDirs_cons_ok v c d ds l).mp h
    rw [hl]
    simp [ih rest hrec]

theorem loadDirs_append_error (v : String → Bool) (c : CertifiedKey → String → Bool)
    (e : CertLoadError) :
    ∀ (pre rest : List DomainDir),
      (∀ p ∈ pre, v p.name = true ∧
        ∃ k, load_domain p.cert p.key p.name = .ok k ∧ c k p.name = true) →
      loadDirs v c rest = .error e →
      loadDirs v c (pre ++ rest) = .error e := by
  intro pre
  induction pre with
  | nil => intro rest _ h; simpa using h
  | cons p pre ih =>
    intro rest hpre hrest
    obtain ⟨hv, k, hld, hcc⟩ := hpre p (by simp)
    have hrec := ih rest (fun q hq => hpre q (by simp [hq])) hrest
    show loadDirs v c (p :: (pre ++ rest)) = .error e
    simp only [loadDirs]
    rw [hld, hrec]
    simp [hv, hcc]

theorem load_from_ok_decomp (v : String → Bool) (c : CertifiedKey → String → Bool)
    (t : CertTree) (store : CertStore) (h : load_from v c t = .ok store) :
    ∃ fb l, fallbackResult t = .ok fb ∧ t.readable = true ∧
      loadDirs v c t.dirs = .ok l ∧ store = ⟨sortCerts (fb ++ l)⟩ := by
  unfold load_from at h
  revert h
  cases hf : fallbackResult t with
  | error e => intro h; simp at h
  | ok fb =>
    by_cases hr : t.readable
    · cases hl : loadDirs v c t.dirs with
      | error e => intro h; simp [hr] at h
      | ok l =>
        intro h
        replace h : (Except.ok ⟨sortCerts (fb ++ l)⟩ : Except CertLoadError CertStore) =
          .ok store := by
          rw [← h]
          simp [hr]
        injection h with h
        exact ⟨fb, l, rfl, hr, rfl, h.symm⟩
    · intro h
      simp [hr] at h

theorem fallbackResult_ok_shape (t : CertTree) (fb : List (String × CertifiedKey))
    (h : fallbackResult t = .ok fb) :
    fb = [] ∨ ∃ key, load_domain t.rootCert t.rootKey "." = .ok key ∧ fb = [("", key)] := by
  unfold fallbackResult at h
  cases hld : load_domain t.rootCert t.rootKey "." with
  | error e =>
    rw [hld] at h
    cases e with
    | EmptyDomain d2 =>
      replace h : (Except.ok [] : Except CertLoadError _) = .ok fb := h
      injection h with h
      exact Or.inl h.symm
    | NoReadCertDir => simp at h
    | BadDomain d2 => simp at h
    | BadKey d2 => simp at h
    | BadCert d2 => simp at h
    | MissingKey d2 => simp at h
    | MissingCert d2 => simp at h
  | ok key =>
    rw [hld] at h
    replace h : (Except.ok [("", key)] : Except CertLoadError _) = .ok fb := h
    injection h with h
    exact Or.inr ⟨key, rfl, h.symm⟩

theorem mem_splitDots (c : Char) :
    ∀ cs, c ∈ cs → c ≠ '.' → ∃ l ∈ splitDots cs, c ∈ l := by
  intro cs
  induction cs with
  | nil => intro h _; simp at h
  | cons b bs ih =>
    intro hmem hne
    rcases List.mem_cons.mp hmem with h | h
    · subst h
      simp only [splitDots]
      rw [if_neg hne]
      cases hs : splitDots bs with
      | nil => exact absurd hs (splitDots_ne_nil bs)
      | cons x xs => exact ⟨c :: x, by simp, by simp⟩
    · obtain ⟨l, hl, hcl⟩ := ih h hne
      by_cases hb : b = '.'
      · subst hb
        simp only [splitDots, if_true]
        exact ⟨l, by simp [hl], hcl⟩
      · simp only [splitDots]
        rw [if_neg hb]
        cases hs : splitDots bs with
        | nil => exact absurd hs (splitDots_ne_nil bs)
        | cons x xs =>
          rw [hs] at hl
          rcases List.mem_cons.mp hl with h2 | h2
          · subst h2
            exact ⟨b :: l, by simp, by simp [hcl]⟩
          · exact ⟨l, by simp [h2], hcl⟩

theorem nonascii_not_validDnsName (s : String) (h : strIsAscii s = false) :
    validDnsName s = false := by
  unfold strIsAscii at h
  rw [List.all_eq_false] at h
  obtain ⟨ch, hmem, hch⟩ := h
  simp at hch
  have hne : ch ≠ '.' := by
    intro he
    subst he
    revert hch
    decide
  obtain ⟨l, hl, hcl⟩ := mem_splitDots ch s.data hmem hne
  have hldh : isLdhChar ch = false := by
    unfold isLdhChar
    simp
    omega
  have hlab : validLabel l = false := by
    unfold validLabel
    have hall : l.all isLdhChar = false :=
      List.all_eq_false.mpr ⟨ch, hcl, by simp [hldh]⟩
    simp [hall]
  have hlabs : (splitDots s.data).all validLabel = false :=
    List.all_eq_false.mpr ⟨l, hl, by simp [hlab]⟩
  unfold validDnsName
  simp [hlabs]

theorem load_from_labels_nodup (v : String → Bool) (c : CertifiedKey → String → Bool)
    (t : CertTree) (store : CertStore) (h : load_from v c t = .ok store)
    (hnd : (t.dirs.map (fun d => d.name)).Nodup)
    (hne : ∀ d ∈ t.dirs, d.name ≠ "") :
    (store.certs.map (fun p => p.1)).Nodup := by
  obtain ⟨fb, l, hf, hr, hl, hstore⟩ := load_from_ok_decomp v c t store h
  have hperm : (store.certs.map (fun p => p.1)).Perm ((fb ++ l).map (fun p => p.1)) := by
    rw [hstore]
    exact List.Perm.map _ (sortCerts_perm _)
  rw [hperm.nodup_iff]
  have hlabl : l.map (fun p => p.1) = t.dirs.map (fun d => d.name) :=
    loadDirs_ok_labels v c t.dirs l hl
  rcases fallbackResult_ok_shape t fb hf with hfb | ⟨key, -, hfb⟩
  · subst hfb
    simpa [hlabl] using hnd
  · subst hfb
    rw [List.map_append, hlabl]
    show (("" : String) :: t.dirs.map (fun d => d.name)).Nodup
    rw [List.nodup_cons]
    refine ⟨?_, hnd⟩
    intro hmem
    obtain ⟨d, hd, hdn⟩ := List.mem_map.mp hmem
    exact hne d hd hdn

/-! Claim theorems. -/

/-- Claim C1: the spec asserts that in the order produced by the
comparator of CertStore::load_from the empty fallback label sorts after
every named domain, occupying the last position.  The code does the
opposite: splitting the empty string at dots yields one empty component,
which loses lexically to the nonempty rightmost component of any real
domain, so the comparator returns lt before ever reaching the length
tie-break the spec appeals to.  At the concrete input below (one domain
directory example.com plus a fallback pair at the root) the loaded store
places the empty-label entry at the first position and the named domain
last. -/
theorem c1_fallback_label_sorts_first :
    load_from validDnsName (fun _ _ => true)
      ⟨.valid 5, .valid 6, true, [⟨"example.com", .valid 1, .valid 2⟩]⟩ =
      .ok ⟨[("", ⟨5, 6⟩), ("example.com", ⟨1, 2⟩)]⟩ ∧
    (CertStore.mk [("", ⟨5, 6⟩), ("example.com", ⟨1, 2⟩)]).certs.head? =
      some ("", ⟨5, 6⟩) ∧
    (CertStore.mk [("", ⟨5, 6⟩), ("example.com", ⟨1, 2⟩)]).certs.getLast? =
      some ("example.com", ⟨1, 2⟩) ∧
    domainCmp "" "example.com" = .lt := by
  refine ⟨by decide, rfl, by decide, by decide⟩

/-- Claim C2, counterexample: the claim states that resolving exactly the
hostname of any loaded named-domain entry returns that entry's identity.
Two valid domain directories ample.com and example.com refute it: the
comparator orders ample.com before example.com, ample.com is a literal
string suffix of example.com, so resolving example.com returns the
ample.com identity rather than the example.com one. -/
theorem c2_counterexample :
    load_from validDnsName (fun _ _ => true)
      ⟨.absent, .absent, true,
        [⟨"ample.com", .valid 1, .valid 2⟩, ⟨"example.com", .valid 3, .valid 4⟩]⟩ =
      .ok ⟨[("ample.com", ⟨1, 2⟩), ("example.com", ⟨3, 4⟩)]⟩ ∧
    resolve ⟨[("ample.com", ⟨1, 2⟩), ("example.com", ⟨3, 4⟩)]⟩ (some "example.com") =
      some ⟨1, 2⟩ ∧
    (⟨1, 2⟩ : CertifiedKey) ≠ ⟨3, 4⟩ := by
  refine ⟨by decide, by decide, by decide⟩

/-- Claim C2 (amended): for every directory tree on which load_from
succeeds, resolving exactly the hostname of a loaded entry returns that
entry's identity, provided no other stored entry's label (the empty
fallback label included) is a literal string suffix of that hostname.
The provisos are forced by the counterexample above and by the fallback,
whose empty label is a suffix of everything. -/
theorem c2_resolve_exact_hostname (v : String → Bool) (c : CertifiedKey → String → Bool)
    (t : CertTree) (store : CertStore) (d : String) (k : CertifiedKey)
    (hok : load_from v c t = .ok store)
    (hmem : (d, k) ∈ store.certs)
    (hnd : (t.dirs.map (fun x => x.name)).Nodup)
    (hne : ∀ x ∈ t.dirs, x.name ≠ "")
    (honly : ∀ e ∈ store.certs, e.1 ≠ d → endsWith d e.1 = false) :
    resolve store (some d) = some k := by
  have hlnd := load_from_labels_nodup v c t store hok hnd hne
  have huniq : ∀ b ∈ store.certs, (fun p => endsWith d p.1) b = true → b = (d, k) := by
    intro b hb hpb
    by_cases hbd : b.1 = d
    · exact List.inj_on_of_nodup_map hlnd hb hmem (by rw [hbd])
    · have hpb2 : endsWith d b.1 = true := hpb
      rw [honly b hb hbd] at hpb2
      exact absurd hpb2 (by simp)
  have hfind : store.certs.find? (fun p => endsWith d p.1) = some (d, k) :=
    find?_mem_unique hmem (endsWith_refl d) huniq
  show (store.certs.find? (fun p => endsWith d p.1)).map (fun p => p.2) = some k
  rw [hfind]
  rfl

/-- Witness for the amended claim C2, at a store with a single entry. -/
theorem c2_witness :
    resolve ⟨[("example.com", ⟨1, 2⟩)]⟩ (some "example.com") = some ⟨1, 2⟩ :=
  c2_resolve_exact_hostname validDnsName (fun _ _ => true)
    ⟨.absent, .absent, true, [⟨"example.com", .valid 1, .valid 2⟩]⟩
    ⟨[("example.com", ⟨1, 2⟩)]⟩ "example.com" ⟨1, 2⟩
    (by decide) (by decide) (by decide) (by decide) (by decide)

/-- Claim C3: the spec's worked example expects resolution against the
store built from example.com and sub.example.com plus a fallback pair to
return the sub.example.com identity for sub.example.com, the fallback
for other.org, and no identity for com.  In the code the fallback entry
sorts first and its empty label is a suffix of every hostname, so all
three queries return the fallback identity; only the other.org line of
the example holds. -/
theorem c3_example_store_resolution :
    load_from validDnsName (fun _ _ => true)
      ⟨.valid 5, .valid 6, true,
        [⟨"example.com", .valid 1, .valid 2⟩, ⟨"sub.example.com", .valid 3, .valid 4⟩]⟩ =
      .ok ⟨[("", ⟨5, 6⟩), ("sub.example.com", ⟨3, 4⟩), ("example.com", ⟨1, 2⟩)]⟩ ∧
    resolve ⟨[("", ⟨5, 6⟩), ("sub.example.com", ⟨3, 4⟩), ("example.com", ⟨1, 2⟩)]⟩
      (some "sub.example.com") = some ⟨5, 6⟩ ∧
    resolve ⟨[("", ⟨5, 6⟩), ("sub.example.com", ⟨3, 4⟩), ("example.com", ⟨1, 2⟩)]⟩
      (some "other.org") = some ⟨5, 6⟩ ∧
    resolve ⟨[("", ⟨5, 6⟩), ("sub.example.com", ⟨3, 4⟩), ("example.com", ⟨1, 2⟩)]⟩
      (some "com") = some ⟨5, 6⟩ := by
  refine ⟨by decide, by decide, by decide, by decide⟩

/-- Claim C4: with a supplied hostname, resolve returns the identity of
the first stored entry, in stored order, whose label is a literal string
suffix of the hostname, and none when no entry label is such a suffix;
in particular a store with the label ample.com resolves the hostname
example.com to that entry, there being no dot-boundary check. -/
theorem c4_resolve_first_suffix_match :
    (∀ (store : CertStore) (name : String),
      (resolve store (some name) = none ↔
        ∀ e ∈ store.certs, endsWith name e.1 = false) ∧
      (∀ k, resolve store (some name) = some k ↔
        ∃ l1 e l2, store.certs = l1 ++ e :: l2 ∧ endsWith name e.1 = true ∧
          (∀ x ∈ l1, endsWith name x.1 = false) ∧ k = e.2)) ∧
    resolve ⟨[("ample.com", ⟨1, 2⟩)]⟩ (some "example.com") = some ⟨1, 2⟩ := by
  constructor
  · intro store name
    constructor
    · show (store.certs.find? (fun p => endsWith name p.1)).map (fun p => p.2) = none ↔ _
      rw [Option.map_eq_none', List.find?_eq_none]
      constructor
      · intro h e he
        have := h e he
        simpa using this
      · intro h e he
        simp [h e he]
    · intro k
      show (store.certs.find? (fun p => endsWith name p.1)).map (fun p => p.2) = some k ↔ _
      rw [Option.map_eq_some']
      constructor
      · rintro ⟨e, hfind, hk⟩
        obtain ⟨l1, l2, hsplit, hpe, hfront⟩ := (find?_eq_some_decomp _ _ _).mp hfind
        exact ⟨l1, e, l2, hsplit, hpe, hfront, hk.symm⟩
      · rintro ⟨l1, e, l2, hsplit, hpe, hfront, hk⟩
        exact ⟨e, (find?_eq_some_decomp _ _ _).mpr ⟨l1, l2, hsplit, hpe, hfront⟩, hk.symm⟩
  · decide

/-- Claim C5, counterexample: the claim asserts MissingKey whenever the
certificate file exists and the key file does not.  When the existing
certificate file is malformed and the key file is absent, load_domain
parses the certificate before probing the key and fails with BadCert. -/
theorem c5_counterexample :
    load_domain .invalid .absent "example.com" = .error (.BadCert "example.com") ∧
    load_domain .invalid .absent "example.com" ≠ .error (.MissingKey "example.com") := by
  refine ⟨rfl, by decide⟩

/-- Claim C5 (amended): load_domain fails with EmptyDomain exactly when
neither file exists; it fails with MissingKey whenever the certificate
file exists and parses but the key file does not exist (the parsing
proviso is forced by the counterexample); and it fails with MissingCert
whenever the key file exists and the certificate file does not. -/
theorem c5_missing_file_errors (cert key : FileContent) (d : String) :
    (load_domain cert key d = .error (.EmptyDomain d) ↔
      cert = .absent ∧ key = .absent) ∧
    ((∃ n, cert = .valid n) → key = .absent →
      load_domain cert key d = .error (.MissingKey d)) ∧
    (cert = .absent → key ≠ .absent →
      load_domain cert key d = .error (.MissingCert d)) := by
  refine ⟨?_, ?_, ?_⟩
  · cases cert <;> cases key <;> simp [load_domain]
  · rintro ⟨n, hc⟩ hk
    subst hc
    subst hk
    rfl
  · intro hc hk
    subst hc
    cases key with
    | absent => exact absurd rfl hk
    | invalid => rfl
    | valid n => rfl

/-- Witness for the amended claim C5, covering each of its three
branches at concrete file contents. -/
theorem c5_witness :
    load_domain .absent .absent "a" = .error (.EmptyDomain "a") ∧
    load_domain (.valid 0) .absent "a" = .error (.MissingKey "a") ∧
    load_domain .absent (.valid 0) "a" = .error (.MissingCert "a") :=
  ⟨(c5_missing_file_errors .absent .absent "a").1.mpr ⟨rfl, rfl⟩,
   (c5_missing_file_errors (.valid 0) .absent "a").2.1 ⟨0, rfl⟩ rfl,
   (c5_missing_file_errors .absent (.valid 0) "a").2.2 rfl (by simp)⟩

/-- Claim C6: when the fallback probe of the root reports that neither
file is present, load_from treats it as no fallback configured, without
error and without adding an empty-label entry; any other loader error
from the probe aborts load_from with the same error kind relabeled to
fallback. -/
theorem c6_fallback_probe_handling (v : String → Bool) (c : CertifiedKey → String → Bool)
    (t : CertTree) :
    (t.rootCert = .absent → t.rootKey = .absent →
      fallbackResult t = .ok [] ∧
      ∀ store k, load_from v c t = .ok store → (∀ x ∈ t.dirs, x.name ≠ "") →
        ("", k) ∉ store.certs) ∧
    (t.rootCert = .invalid → load_from v c t = .error (.BadCert "fallback")) ∧
    (∀ n, t.rootCert = .valid n → t.rootKey = .absent →
      load_from v c t = .error (.MissingKey "fallback")) ∧
    (∀ n, t.rootCert = .valid n → t.rootKey = .invalid →
      load_from v c t = .error (.BadKey "fallback")) ∧
    (t.rootCert = .absent → t.rootKey ≠ .absent →
      load_from v c t = .error (.MissingCert "fallback")) := by
  refine ⟨?_, ?_, ?_, ?_, ?_⟩
  · intro h1 h2
    have hfb : fallbackResult t = .ok [] := by
      unfold fallbackResult
      rw [h1, h2]
      rfl
    refine ⟨hfb, ?_⟩
    intro store k hok hne hmem
    obtain ⟨fb, l, hf, hr, hl, hstore⟩ := load_from_ok_decomp v c t store hok
    rw [hfb] at hf
    injection hf with hf
    rw [hstore] at hmem
    have hmem2 : ("", k) ∈ fb ++ l := (sortCerts_perm _).mem_iff.mp hmem
    rw [← hf] at hmem2
    simp at hmem2
    have hlab : ("" : String) ∈ t.dirs.map (fun x => x.name) := by
      rw [← loadDirs_ok_labels v c t.dirs l hl]
      exact List.mem_map_of_mem _ hmem2
    obtain ⟨d, hd, hdn⟩ := List.mem_map.mp hlab
    exact hne d hd hdn
  · intro h1
    have hfb : fallbackResult t = .error (.BadCert "fallback") := by
      unfold fallbackResult
      rw [h1]
      rfl
    unfold load_from
    rw [hfb]
  · intro n h1 h2
    have hfb : fallbackResult t = .error (.MissingKey "fallback") := by
      unfold fallbackResult
      rw [h1, h2]
      rfl
    unfold load_from
    rw [hfb]
  · intro n h1 h2
    have hfb : fallbackResult t = .error (.BadKey "fallback") := by
      unfold fallbackResult
      rw [h1, h2]
      rfl
    unfold load_from
    rw [hfb]
  · intro h1 h2
    cases hk : t.rootKey with
    | absent => exact absurd hk h2
    | invalid =>
      have hfb : fallbackResult t = .error (.MissingCert "fallback") := by
        unfold fallbackResult
        rw [h1, hk]
        rfl
      unfold load_from
      rw [hfb]
    | valid n =>
      have hfb : fallbackResult t = .error (.MissingCert "fallback") := by
        unfold fallbackResult
        rw [h1, hk]
        rfl
      unfold load_from
      rw [hfb]

/-- Witness for claim C6, exercising the empty probe outcome and all four
relabeled error outcomes at concrete trees. -/
theorem c6_witness :
    fallbackResult ⟨.absent, .absent, true, []⟩ = .ok [] ∧
    load_from validDnsName (fun _ _ => true) ⟨.invalid, .absent, true, []⟩ =
      .error (.BadCert "fallback") ∧
    load_from validDnsName (fun _ _ => true) ⟨.valid 1, .absent, true, []⟩ =
      .error (.MissingKey "fallback") ∧
    load_from validDnsName (fun _ _ => true) ⟨.valid 1, .invalid, true, []⟩ =
      .error (.BadKey "fallback") ∧
    load_from validDnsName (fun _ _ => true) ⟨.absent, .valid 1, true, []⟩ =
      .error (.MissingCert "fallback") :=
  ⟨((c6_fallback_probe_handling validDnsName (fun _ _ => true) _).1 rfl rfl).1,
   (c6_fallback_probe_handling validDnsName (fun _ _ => true) _).2.1 rfl,
   (c6_fallback_probe_handling validDnsName (fun _ _ => true) _).2.2.1 1 rfl rfl,
   (c6_fallback_probe_handling validDnsName (fun _ _ => true) _).2.2.2.1 1 rfl rfl,
   (c6_fallback_probe_handling validDnsName (fun _ _ => true) _).2.2.2.2 rfl (by simp)⟩

/-- Claim C7: a subdirectory whose name fails the DNS-name validation
makes load_from abort with BadDomain carrying that name (stated for the
point in the scan where that directory is reached, the fallback probe
having passed and every earlier directory having loaded); the modelled
webpki validation rejects every non-ASCII name; and the displayed message
of BadDomain for a non-ASCII name says the name must be punycoded. -/
theorem c7_bad_domain_rejection :
    (∀ (v : String → Bool) (c : CertifiedKey → String → Bool) (t : CertTree)
        (pre post : List DomainDir) (d : DomainDir),
      t.readable = true →
      t.dirs = pre ++ d :: post →
      v d.name = false →
      ((t.rootCert = .absent ∧ t.rootKey = .absent) ∨
        (∃ fbk, load_domain t.rootCert t.rootKey "." = .ok fbk)) →
      (∀ p ∈ pre, v p.name = true ∧
        ∃ k, load_domain p.cert p.key p.name = .ok k ∧ c k p.name = true) →
      load_from v c t = .error (.BadDomain d.name)) ∧
    (∀ s, strIsAscii s = false → validDnsName s = false) ∧
    (∀ s, strIsAscii s = false →
      displayCertLoadError (.BadDomain s) =
        "The domain name " ++ s ++ " cannot be processed, it must be punycoded.") := by
  refine ⟨?_, fun s h => nonascii_not_validDnsName s h, ?_⟩
  · intro v c t pre post d hr hdirs hv hfb hpre
    have herr0 : loadDirs v c (d :: post) = .error (.BadDomain d.name) := by
      simp [loadDirs, hv]
    have herr : loadDirs v c t.dirs = .error (.BadDomain d.name) := by
      rw [hdirs]
      exact loadDirs_append_error v c _ pre (d :: post) hpre herr0
    have hfbok : ∃ fb, fallbackResult t = .ok fb := by
      rcases hfb with ⟨h1, h2⟩ | ⟨fbk, hk⟩
      · exact ⟨[], by unfold fallbackResult; rw [h1, h2]; rfl⟩
      · exact ⟨[("", fbk)], by unfold fallbackResult; rw [hk]⟩
    obtain ⟨fb, hfbeq⟩ := hfbok
    unfold load_from
    rw [hfbeq, herr]
    simp [hr]
  · intro s h
    unfold displayCertLoadError
    simp [h]

/-- Witness for claim C7, at a tree with a single non-ASCII directory
name. -/
theorem c7_witness :
    load_from validDnsName (fun _ _ => true)
      ⟨.absent, .absent, true, [⟨"exämple", .valid 1, .valid 2⟩]⟩ =
      .error (.BadDomain "exämple") ∧
    validDnsName "exämple" = false ∧
    displayCertLoadError (.BadDomain "exämple") =
      "The domain name " ++ "exämple" ++ " cannot be processed, it must be punycoded." :=
  ⟨c7_bad_domain_rejection.1 validDnsName (fun _ _ => true)
    ⟨.absent, .absent, true, [⟨"exämple", .valid 1, .valid 2⟩]⟩ [] []
    ⟨"exämple", .valid 1, .valid 2⟩ rfl rfl (by decide) (Or.inl ⟨rfl, rfl⟩) (by simp),
   c7_bad_domain_rejection.2.1 "exämple" (by decide),
   c7_bad_domain_rejection.2.2 "exämple" (by decide)⟩

/-- Claim C8: resolution without a supplied SNI hostname returns no
identity, whatever the store contains. -/
theorem c8_resolve_requires_sni (store : CertStore) : resolve store none = none := rfl

/-- Claim C9: the comparator of CertStore::load_from never returns eq on
two distinct labels, so an unstable sort of entries with pairwise
distinct labels has exactly one ascending arrangement: any two sorted
permutations of the same loaded entry list coincide and resolve
identically on every hostname.  Two runs of load_from over identical
trees therefore produce identical resolution results. -/
theorem c9_unique_sorted_resolution :
    (∀ s1 s2 : String, s1 ≠ s2 → domainCmp s1 s2 ≠ .eq) ∧
    (∀ (base l1 l2 : List (String × CertifiedKey)),
      (base.map (fun p => p.1)).Nodup →
      l1.Perm base → l2.Perm base →
      l1.Pairwise certLe → l2.Pairwise certLe →
      l1 = l2 ∧ ∀ q, resolve ⟨l1⟩ q = resolve ⟨l2⟩ q) := by
  constructor
  · intro s1 s2 hne he
    exact hne ((domainCmp_eq_iff s1 s2).mp he)
  · intro base l1 l2 hnd hp1 hp2 hs1 hs2
    have hl1nd : (l1.map (fun p => p.1)).Nodup := ((hp1.map _).nodup_iff).mpr hnd
    have heq := sorted_perm_unique l1 l2 hs1 hs2 (hp1.trans hp2.symm) hl1nd
    exact ⟨heq, fun q => by rw [heq]⟩

/-- Witness for claim C9, at a concrete two-entry list and a concrete
pair of distinct labels. -/
theorem c9_witness :
    (([("a.b", ⟨1, 1⟩), ("b", ⟨2, 2⟩)] : List (String × CertifiedKey)) =
      [("a.b", ⟨1, 1⟩), ("b", ⟨2, 2⟩)] ∧
      ∀ q, resolve ⟨[("a.b", ⟨1, 1⟩), ("b", ⟨2, 2⟩)]⟩ q =
        resolve ⟨[("a.b", ⟨1, 1⟩), ("b", ⟨2, 2⟩)]⟩ q) ∧
    domainCmp "a" "b" ≠ .eq :=
  ⟨c9_unique_sorted_resolution.2 [("b", ⟨2, 2⟩), ("a.b", ⟨1, 1⟩)]
      [("a.b", ⟨1, 1⟩), ("b", ⟨2, 2⟩)] [("a.b", ⟨1, 1⟩), ("b", ⟨2, 2⟩)]
      (by decide) (by decide) (by decide) (by decide) (by decide),
   c9_unique_sorted_resolution.1 "a" "b" (by decide)⟩

/-- Claim C10: in every store load_from builds from a tree whose root
carries a fallback cert and key pair, the empty-label fallback entry
occupies the first position after sorting, because splitting the empty
string at dots yields one empty component that compares lexically before
the nonempty rightmost component of any valid domain name; consequently
resolve returns the fallback identity for every supplied hostname,
whatever named-domain entries the store contains.  The shape hypothesis
on directory names (nonempty rightmost dot component) holds for every
name webpki accepts. -/
theorem c10_fallback_first_shadows_all (v : String → Bool)
    (c : CertifiedKey → String → Bool) (t : CertTree) (store : CertStore)
    (key : CertifiedKey)
    (hok : load_from v c t = .ok store)
    (hfb : load_domain t.rootCert t.rootKey "." = .ok key)
    (hshape : ∀ d ∈ t.dirs, lastComponentNonempty d.name = true) :
    store.certs.head? = some ("", key) ∧
    ∀ q : String, resolve store (some q) = some key := by
  obtain ⟨fb, l, hf, hr, hl, hstore⟩ := load_from_ok_decomp v c t store hok
  have hfbeq : fb = [("", key)] := by
    have hfr : fallbackResult t = .ok [("", key)] := by
      unfold fallbackResult
      rw [hfb]
    rw [hfr] at hf
    injection hf with hf
    exact hf.symm
  have hfront : ∀ y ∈ l, certLe ("", key) y := by
    intro y hy
    have hylab : y.1 ∈ t.dirs.map (fun d => d.name) := by
      rw [← loadDirs_ok_labels v c t.dirs l hl]
      exact List.mem_map_of_mem _ hy
    obtain ⟨d, hd, hdn⟩ := List.mem_map.mp hylab
    have hshape2 : lastComponentNonempty y.1 = true := by
      rw [← hdn]
      exact hshape d hd
    unfold certLe
    rw [domainCmp_empty_lt y.1 hshape2]
    simp
  have hcerts : store.certs = ("", key) :: sortCerts l := by
    rw [hstore, hfbeq]
    show sortCerts (("", key) :: l) = ("", key) :: sortCerts l
    exact sortCerts_cons_front _ _ hfront
  constructor
  · rw [hcerts]
    rfl
  · intro q
    show (store.certs.find? (fun p => endsWith q p.1)).map (fun p => p.2) = some key
    rw [hcerts]
    rw [List.find?_cons_of_pos (sortCerts l)
      (show (fun p => endsWith q p.1) ("", key) = true from endsWith_emptyLabel q)]
    rfl

/-- Witness for claim C10, at a tree with one domain directory and a
fallback pair. -/
theorem c10_witness :
    (CertStore.mk [("", ⟨5, 6⟩), ("example.com", ⟨1, 2⟩)]).certs.head? =
      some ("", ⟨5, 6⟩) ∧
    ∀ q : String, resolve ⟨[("", ⟨5, 6⟩), ("example.com", ⟨1, 2⟩)]⟩ (some q) =
      some ⟨5, 6⟩ :=
  c10_fallback_first_shadows_all validDnsName (fun _ _ => true)
    ⟨.valid 5, .valid 6, true, [⟨"example.com", .valid 1, .valid 2⟩]⟩
    ⟨[("", ⟨5, 6⟩), ("example.com", ⟨1, 2⟩)]⟩ ⟨5, 6⟩
    (by decide) (by decide) (by decide)

